import Mathlib

/-!
Verification of the `autocomplete-az` crawler core (`src/index.ts`).

Strings of the TypeScript source are modeled as `List Char` (`Str`), so that
every operation of the source (slicing, searching, regex-like scans) is an
executable structural recursion.  Each definition below is a direct
translation of the function of the same name in `src/index.ts`; JavaScript
peculiarities (in-place `Array.prototype.sort`, truthiness of arrays,
`Map` overwrite semantics, optional chaining on `undefined`) are modeled
explicitly where the source relies on them.
-/

/-- Strings of the source, modeled as lists of characters. -/
abbrev Str := List Char

/-- The whitespace class of JavaScript `\s` and `String.prototype.trim`,
restricted to the ASCII range (the only characters that occur in the
documentation text this program processes). -/
def jsIsSpace (c : Char) : Bool :=
  c == ' ' || c == '\t' || c == '\n' || c == '\r' || c == '\x0b' || c == '\x0c'

/-- Models `String.prototype.trim`: drop whitespace from both ends. -/
def jsTrim (s : Str) : Str :=
  ((s.dropWhile jsIsSpace).reverse.dropWhile jsIsSpace).reverse

/-- Does `p` occur at the start of `s`? -/
def prefixOf : Str → Str → Bool
  | [], _ => true
  | _ :: _, [] => false
  | p :: ps, s :: ss => p == s && prefixOf ps ss

/-- Models `String.prototype.includes`: does `pat` occur anywhere in `s`? -/
def containsSub : Str → Str → Bool
  | [], pat => pat.isEmpty
  | c :: rest, pat => prefixOf pat (c :: rest) || containsSub rest pat

/-- Models `String.prototype.split` with a one-character separator: split at every
occurrence of `sep`; always returns at least one (possibly empty) piece. -/
def splitOnChar (sep : Char) : Str → List Str
  | [] => [[]]
  | c :: rest =>
    if c == sep then [] :: splitOnChar sep rest
    else
      match splitOnChar sep rest with
      | [] => [[c]]
      | h :: t => (c :: h) :: t

/-- Models `String.prototype.toLowerCase` (ASCII). -/
def toLowerStr (s : Str) : Str := s.map Char.toLower

/- ===== TextNormalizer (src/index.ts lines 25-41) ===== -/

/-- The function `removeTrailingDot` (line 25): `content.endsWith(".") ? content.slice(0, -1) : content`. -/
def removeTrailingDot (s : Str) : Str :=
  if s.getLast? = some '.' then s.dropLast else s

/-- The result type of `figifyList`/`figifyEmptyList`: a JS value that is
either `undefined`, a bare element, or an array. -/
inductive Figify (α : Type) where
  | absent : Figify α
  | single (a : α) : Figify α
  | many (l : List α) : Figify α
deriving DecidableEq

/-- The function `figifyList` (line 27): a one-element array becomes its sole element,
anything else is returned unchanged. -/
def figifyList {α : Type} (l : List α) : Figify α :=
  match l with
  | [a] => .single a
  | _ => .many l

/-- The function `figifyEmptyList` (line 35): an empty array becomes `undefined`,
otherwise as `figifyList`. -/
def figifyEmptyList {α : Type} (l : List α) : Figify α :=
  match l with
  | [] => .absent
  | _ => figifyList l

/-- The suffix after the last `)` of `s` (everything the greedy `\(.*\)`
match does not consume). -/
def afterLastClose (s : Str) : Str :=
  (s.reverse.takeWhile (fun c => c != ')')).reverse

/-- The line terminators of JavaScript regular expressions: the dot of
`/\(.*\)/` matches any character except LF, CR, LS (U+2028) and PS
(U+2029), so no match of the regex can cross one of these. -/
def jsDotExcl (c : Char) : Bool :=
  c == '\n' || c == '\r' || c == '\u2028' || c == '\u2029'

/-- Generalized split: cut `s` at every character satisfying `p`; always
returns one (possibly empty) segment more than there are separators, in
order. -/
def splitOnPred (p : Char → Bool) : Str → List Str
  | [] => [[]]
  | c :: rest =>
    if p c then [] :: splitOnPred p rest
    else
      match splitOnPred p rest with
      | [] => [[c]]
      | h :: t => (c :: h) :: t

/-- Re-interleave the segments of `splitOnPred` with the separators they
were cut at (the separators of `s`, in order, are `s.filter p`). -/
def joinSeps : List Str → Str → Str
  | [], _ => []
  | [x], _ => x
  | x :: xs, sep :: seps => x ++ sep :: joinSeps xs seps
  | x :: xs, [] => x ++ joinSeps xs []

/-- One terminator-free segment of `replace(/\(.*\)/g, "")`: the greedy
regex matches from the first `(` of the segment to the last `)` of the
segment (if any), and the remainder of the segment can contain no further
match since it has no `)`.  `tail` is what follows the first `(` (empty
when the segment has no `(`, in which case the `any` test fails and the
segment is returned unchanged). -/
def stripParenLine (line : Str) : Str :=
  let tail := (line.dropWhile (fun c => c != '(')).drop 1
  if tail.any (fun c => c == ')') then
    line.takeWhile (fun c => c != '(') ++ afterLastClose tail
  else line

/-- Models `replace(/\(.*\)/g, "")`: the dot matches no line terminator
(`jsDotExcl`), so every match lies inside one maximal terminator-free
segment; each such segment is processed independently and the separating
terminator characters are kept in place. -/
def removeParens (s : Str) : Str :=
  joinSeps ((splitOnPred jsDotExcl s).map stripParenLine) (s.filter jsDotExcl)

/-- The function `cleanCommandName` (line 39): `command.replace(/\(.*\)/g, "").trim()`. -/
def cleanCommandName (command : Str) : Str :=
  jsTrim (removeParens command)

/-- Models `replaceAll(/\s+/g, " ")`, written with a flag recording whether the
previous character was part of a whitespace run already replaced. -/
def collapseWsAux : Bool → Str → Str
  | _, [] => []
  | prevWs, c :: rest =>
    if jsIsSpace c then
      if prevWs then collapseWsAux true rest else ' ' :: collapseWsAux true rest
    else c :: collapseWsAux false rest

/-- Line 73's `replaceAll(/\s+/g, " ")`: collapse every whitespace run to a
single space. -/
def collapseWs (s : Str) : Str := collapseWsAux false s

/- ===== ParameterClassifier: getOption (src/index.ts lines 43-83) ===== -/

/-- A Fig argument object as produced by the source: `description` and
`isOptional` occur only on positional arguments, `suggestions` only on
option arguments; a missing JS field is `none`. -/
structure FigArg where
  name : Str
  description : Option Str
  suggestions : Option (List Str)
  isOptional : Option Bool
deriving DecidableEq

/-- A Fig option object as produced by `getOption`. -/
structure FigOption where
  name : Figify Str
  description : Str
  args : Option FigArg
  isPersistent : Option Bool
  isRequired : Option Bool
deriving DecidableEq

/-- Stable insertion of `x` into a list sorted by weakly decreasing length:
`x` goes after every element at least as long, so elements of equal length
keep their original relative order. -/
def insertByLenDesc (x : Str) : List Str → List Str
  | [] => [x]
  | y :: ys => if x.length ≤ y.length then y :: insertByLenDesc x ys else x :: y :: ys

/-- The result of `names.sort((a, b) => b.length - a.length)`: JS `sort` is
stable, so the outcome is uniquely determined — weakly decreasing length,
equal lengths in original order — and an insertion sort computes it. -/
def sortByLenDesc (l : List Str) : List Str :=
  l.foldl (fun acc x => insertByLenDesc x acc) []

/-- Models `description.match(/marker([^\n]+)/)`: scan for the first occurrence of
the literal `marker` that is followed by at least one non-newline
character, and return that (greedy) capture. -/
def matchAfterMarker : Str → Str → Option Str
  | [], _ => none
  | c :: rest, marker =>
    if prefixOf marker (c :: rest) then
      let cap := ((c :: rest).drop marker.length).takeWhile (fun x => x != '\n')
      if cap.isEmpty then matchAfterMarker rest marker else some cap
    else matchAfterMarker rest marker

/-- Models `description.replace(/marker[^\n]+/, "")`: delete the first occurrence
of `marker` together with the rest of its line; the remainder of the string
is kept verbatim. -/
def replaceMarkerLine : Str → Str → Str
  | [], _ => []
  | c :: rest, marker =>
    if prefixOf marker (c :: rest) then
      let tail := (c :: rest).drop marker.length
      let cap := tail.takeWhile (fun x => x != '\n')
      if cap.isEmpty then c :: replaceMarkerLine rest marker
      else tail.dropWhile (fun x => x != '\n')
    else c :: replaceMarkerLine rest marker

/-- The function `getOption` (line 43).  Note that `names.sort(...)` on line 51 mutates
the alias array in place, so every later use of the array — the persistent
flag membership tests and the `figifyList(names)` on line 77 — observes the
length-descending order, not the declaration order. -/
def getOption (name : Str) (description : Str) (isPersistent : Bool) (isRequired : Bool) :
    FigOption :=
  let names := (splitOnChar ' ' name).map jsTrim
  let sorted := sortByLenDesc names
  let argName := (sorted.headD []).dropWhile (fun c => c == '-')
  let has_no_arg :=
    containsSub (toLowerStr description) ("default value: false".toList) ||
    (isPersistent &&
      (sorted.any (fun n => n == "--debug".toList) ||
       sorted.any (fun n => n == "--verbose".toList) ||
       sorted.any (fun n => n == "--help".toList) ||
       sorted.any (fun n => n == "--only-show-errors".toList))) ||
    sorted.any (fun n => n == "--yes".toList)
  let suggestions :=
    (matchAfterMarker description ("accepted values:".toList)).map
      (fun m => (splitOnChar ',' m).map jsTrim)
  let args : Option FigArg :=
    if has_no_arg then none
    else some { name := argName, description := none, suggestions := suggestions, isOptional := none }
  let cleanedDescription :=
    jsTrim (collapseWs (replaceMarkerLine
      (replaceMarkerLine description ("default value:".toList))
      ("accepted values:".toList)))
  { name := figifyList sorted
    description := removeTrailingDot cleanedDescription
    args := args
    isPersistent := if isPersistent then some true else none
    isRequired := if isRequired then some true else none }

/- ===== PageParser: parseSubcommand field assembly (lines 247-288) ===== -/

/-- A transient raw parameter block as collected by
`loadSubcommandComponents` (lines 193-245): name text, description text
(already stripped of its trailing dot there), and the required flag. -/
structure RawComponent where
  name : Str
  description : Str
  isRequired : Bool
deriving DecidableEq

/-- In JavaScript every object — in particular every array, also the empty
array — is truthy; `options ? options : undefined` on line 285 therefore
always keeps the array. -/
def jsArrayTruthy {α : Type} (_ : List α) : Bool := true

/-- Does this component classify as an option (line 268):
`c.name.trim().startsWith("-")`? -/
def isOptionComponent (c : RawComponent) : Bool :=
  (jsTrim c.name).head? == some '-'

/-- Does this component classify as a positional argument (line 272):
`c.name.trim().startsWith("<")`? -/
def isArgComponent (c : RawComponent) : Bool :=
  (jsTrim c.name).head? == some '<'

/-- Lines 267-269: classify the dash-prefixed components via `getOption`
with `isPersistent = false`. -/
def classifyOptions (comps : List RawComponent) : List FigOption :=
  (comps.filter isOptionComponent).map
    (fun c => getOption c.name c.description false c.isRequired)

/-- Lines 270-281: collect the angle-bracket components as positional
arguments and collapse the list via `figifyEmptyList`. -/
def classifyArgs (comps : List RawComponent) : Figify FigArg :=
  figifyEmptyList
    ((comps.filter isArgComponent).map
      (fun c =>
        { name := jsTrim c.name
          description := some (removeTrailingDot (jsTrim c.description))
          suggestions := none
          isOptional := if c.isRequired then none else some true }))

/-- A Fig subcommand object.  `subcommands = none` models a JS object with
no `subcommands` field (`undefined`), as distinct from an empty array. -/
inductive FigSubcommand : Type where
  | mk (name : Str) (description : Option Str) (options : Option (List FigOption))
      (args : Figify FigArg) (subcommands : Option (List FigSubcommand))

def FigSubcommand.name : FigSubcommand → Str
  | .mk n _ _ _ _ => n

def FigSubcommand.description : FigSubcommand → Option Str
  | .mk _ d _ _ _ => d

def FigSubcommand.options : FigSubcommand → Option (List FigOption)
  | .mk _ _ o _ _ => o

def FigSubcommand.args : FigSubcommand → Figify FigArg
  | .mk _ _ _ a _ => a

def FigSubcommand.subcommands : FigSubcommand → Option (List FigSubcommand)
  | .mk _ _ _ _ s => s

/-- The function `parseSubcommand` (line 247), with the DOM accesses abstracted into
inputs: `heading` is the heading element's text, `desc` the text of the
first paragraph after the heading's container, and `reqs`/`opts` the raw
parameter blocks collected by `loadSubcommandComponents` for the required
and optional anchors.  Everything from line 252 on is modeled verbatim.
`commandSections[commandSections.length - 1]` of an empty array is JS
`undefined`; it is modeled as the empty string (the claims never exercise
that case). -/
def parseSubcommandModel (heading desc : Str) (reqs opts : List RawComponent)
    (baseCommand : Bool) : FigSubcommand :=
  let commandSections :=
    (splitOnChar ' ' (cleanCommandName heading)).drop (if baseCommand then 1 else 2)
  let name := commandSections.getLastD []
  let options := classifyOptions (reqs ++ opts)
  let args := classifyArgs (reqs ++ opts)
  .mk name (some (removeTrailingDot desc))
    (if jsArrayTruthy options then some options else none) args none

/- ===== genBaseSubcommands de-duplication (lines 85-114) ===== -/

/-- A base command row as extracted from the listing table (lines 89-110). -/
structure BaseCommand where
  name : Str
  description : Str
  link : Option Str
deriving DecidableEq

/-- One step of building `new Map(baseCommands.map((b) => [b.name, b]))`:
`Map.set` overwrites the value of an existing key in place (keeping the
key's first-insertion position) and appends a new key at the end. -/
def mapInsert (m : List (Str × BaseCommand)) (b : BaseCommand) : List (Str × BaseCommand) :=
  if m.any (fun p => decide (p.1 = b.name)) then
    m.map (fun p => if p.1 = b.name then (p.1, b) else p)
  else m ++ [(b.name, b)]

/-- A `Map.get`-style lookup: the value at the first matching key. -/
def mapFind : List (Str × BaseCommand) → Str → Option BaseCommand
  | [], _ => none
  | p :: rest, k => if p.1 = k then some p.2 else mapFind rest k

/-- Line 113: `[...new Map(baseCommands.map((b) => [b.name, b])).values()]`. -/
def dedupByName (rows : List BaseCommand) : List BaseCommand :=
  (rows.foldl mapInsert []).map Prod.snd

/- ===== TreeAssembler: the merge loop of loadSubcommand (lines 327-351) ===== -/

/-- The state of `currentSubcommand` after the walk ends (lines 341-351):
the description is overwritten with the page summary (trailing dot
stripped), and each parsed leaf is appended — but only when the node
already has a `subcommands` array; `currentSubcommand.subcommands != null ?
[...] : undefined` keeps `undefined` as `undefined`, dropping the leaves. -/
def setDescLeaves (n : FigSubcommand) (desc : Str) (leaves : List FigSubcommand) :
    FigSubcommand :=
  .mk n.name (some (removeTrailingDot desc)) n.options n.args
    (n.subcommands.map (fun l => l ++ leaves))

/-- The `forEach` walk of lines 328-351 on one group page, as the function
from the subtree root to its new value.  Mutable aliasing is translated as
follows: descending into an existing child rewrites that child in place
(`List.set`); when a new node `{ name: section }` is created it is appended
via `currentSubcommand.subcommands?.push(...)` — a no-op when the list is
`undefined` (`none` case: the node is dropped and all further mutations hit
only detached objects, so the tree is returned unchanged); the appended
fresh node has no `subcommands` array, and its final state is exactly the
recursive merge applied to it, since `currentSubcommand` aliases it. -/
def mergeGroupPage : List Str → FigSubcommand → Str → List FigSubcommand → FigSubcommand
  | [], n, desc, leaves => setDescLeaves n desc leaves
  | s :: rest, n, desc, leaves =>
    match n.subcommands with
    | none => n
    | some l =>
      match l.findIdx? (fun c => c.name == s) with
      | some i =>
        match l[i]? with
        | some c => .mk n.name n.description n.options n.args
            (some (l.set i (mergeGroupPage rest c desc leaves)))
        | none => n
      | none => .mk n.name n.description n.options n.args
          (some (l ++ [mergeGroupPage rest (.mk s none none (.absent) none) desc leaves]))

/- ===== The run: main and its fetch/write sequence (lines 85-418) ===== -/

/-- The pages the run fetches: the release page (`genCurrentVersion`), the
reference-index listing (`baseUrl`, fetched by `genBaseSubcommands`, by
`genGlobalOptions`, and by `loadSubcommand` for link-less base commands),
and arbitrary further URLs (group-listing and group-detail pages). -/
inductive FetchKey where
  | releases : FetchKey
  | baseIndex : FetchKey
  | url (u : Str) : FetchKey
deriving DecidableEq

/-- The observable I/O trace of a run: the fetches issued and the files
written, in order. -/
structure Trace where
  fetches : List FetchKey
  writes : List Str
deriving DecidableEq

def addFetch (t : Trace) (k : FetchKey) : Trace :=
  { fetches := t.fetches ++ [k], writes := t.writes }

def addWrite (t : Trace) (f : Str) : Trace :=
  { fetches := t.fetches, writes := t.writes ++ [f] }

/-- The external world of one run: the filesystem preconditions, the HTTP
status of each page, the version parsed from the release page title
(`none` when the title has no three-part version), the rows parsed from
the listing table, and the (deduplicated-later) row links of each group
listing page. -/
structure Env where
  srcExists : Bool
  artifactExists : Bool
  status : FetchKey → Nat
  versionFromTitle : Option Str
  rows : List BaseCommand
  groupUrls : Str → List Str

def msgVersionFail : Str := "Failed to infer the latest version".toList
def msgListFail : Str := "Failed to fetch subcommands".toList
def msgGlobalFail : Str := "Failed to global parameters".toList
def msgGroupFail (n : Str) : Str := "Failed to fetch subcommand group ".toList ++ n
def msgSubFail (n : Str) : Str := "Failed to fetch subcommand ".toList ++ n

/-- How one run ends: `usageError` is `process.exit(1)` for a missing `src`
root, `upToDate` is the early `process.exit(0)`, `err` is a thrown (and
never caught) `Error`, and `ok` a completed crawl. -/
inductive Outcome where
  | usageError : Outcome
  | upToDate : Outcome
  | err (msg : Str) : Outcome
  | ok : Outcome
deriving DecidableEq

/-- Line 189's `[...new Set(pages)]`: deduplicate keeping first occurrences. -/
def uniqueFirstAux (seen : List Str) : List Str → List Str
  | [] => []
  | x :: xs =>
    if seen.contains x then uniqueFirstAux seen xs
    else x :: uniqueFirstAux (seen ++ [x]) xs

def uniqueFirst (l : List Str) : List Str := uniqueFirstAux [] l

/-- The fetches of the group-detail pages of one base command (lines
313-354).  The `pLimit(2)` pool is modeled as processing the queued URLs in
order; a non-success status rejects the whole `Promise.all` with
`Failed to fetch subcommand <name>`. -/
def fetchUrlsRun (env : Env) (cname : Str) : List Str → Trace → Option Str × Trace
  | [], t => (none, t)
  | u :: us, t =>
    let t2 := addFetch t (.url u)
    if env.status (.url u) = 200 then fetchUrlsRun env cname us t2
    else (some (msgSubFail cname), t2)

/-- The function `loadSubcommand` (line 291), reduced to its fetch/failure behavior: a
link-less base command re-fetches the listing page; a linked one fetches
its group listing (`loadSubcommandGroupUrls`, lines 169-190) and then each
deduplicated group page.  The parsing and tree assembly are pure and are
modeled separately (`parseSubcommandModel`, `mergeGroupPage`). -/
def loadSubcommandRun (env : Env) (b : BaseCommand) (t : Trace) : Option Str × Trace :=
  match b.link with
  | none =>
    let t2 := addFetch t .baseIndex
    if env.status .baseIndex = 200 then (none, t2) else (some (msgSubFail b.name), t2)
  | some link =>
    let t2 := addFetch t (.url link)
    if env.status (.url link) = 200 then
      fetchUrlsRun env b.name (uniqueFirst (env.groupUrls link)) t2
    else (some (msgGroupFail b.name), t2)

/-- Lines 396-401: the `pLimit(1)` pool builds one base command's subtree
at a time, in listing order; the first rejection rejects the whole
`Promise.all`. -/
def loadAllRun (env : Env) : List BaseCommand → Trace → Option Str × Trace
  | [], t => (none, t)
  | b :: bs, t =>
    match loadSubcommandRun env b t with
    | (none, t2) => loadAllRun env bs t2
    | (some e, t2) => (some e, t2)

/-- The path of the base-commands artifact, `src/az/<version>.ts` (line 149). -/
def versionFile (v : Str) : Str := "src/az/".toList ++ v ++ ".ts".toList

/-- The path of a per-command artifact, `src/az/<version>/<name>.ts` (line 364). -/
def subFile (v n : Str) : Str := "src/az/".toList ++ v ++ "/".toList ++ n ++ ".ts".toList

/-- The function `main` (line 369): precondition check, version resolution
(`genCurrentVersion`, lines 154-165), the up-to-date early exit, the
listing fetch (`genBaseSubcommands`), the global-options fetch
(`genGlobalOptions`, same URL), the write of the base-commands artifact
(`writeBaseCommands`, before any group page is fetched), the serialized
subtree crawls, and finally one write per base command. -/
def mainRun (env : Env) : Outcome × Trace :=
  if env.srcExists then
    let t1 := addFetch { fetches := [], writes := [] } .releases
    if env.status .releases = 200 then
      match env.versionFromTitle with
      | some version =>
        if env.artifactExists then (.upToDate, t1)
        else
          let t2 := addFetch t1 .baseIndex
          if env.status .baseIndex = 200 then
            let baseCommands := dedupByName env.rows
            let t3 := addFetch t2 .baseIndex
            if env.status .baseIndex = 200 then
              let t4 := addWrite t3 (versionFile version)
              match loadAllRun env baseCommands t4 with
              | (none, t5) =>
                (.ok, baseCommands.foldl (fun t b => addWrite t (subFile version b.name)) t5)
              | (some e, t5) => (.err e, t5)
            else (.err msgGlobalFail, t3)
          else (.err msgListFail, t2)
      | none => (.err msgVersionFail, t1)
    else (.err msgVersionFail, t1)
  else (.usageError, { fetches := [], writes := [] })

/- ===== Concrete inputs used by the claim theorems ===== -/

/-- First-some choice on options, used to state the `Map` fold invariant. -/
def orElseO {α : Type} : Option α → Option α → Option α
  | some x, _ => some x
  | none, b => b

/-- The description of the `--output`-style parameter from the spec's test
property, with its capitalized annotation markers. -/
def acceptedValuesDesc : Str :=
  "Accepted values: json, table, yaml. Default value: False.".toList

/-- A base-command node as built on lines 308-312: name, description, and
an empty `subcommands` array. -/
def azRoot : FigSubcommand := .mk ("az".toList) none none .absent (some [])

def webappBase : FigSubcommand :=
  .mk ("webapp".toList) (some ("Manage web apps".toList)) none .absent (some [])

/-- One leaf command as produced by `parseSubcommand` for a heading. -/
def appleLeaf : FigSubcommand :=
  .mk ("apple".toList) (some ("Manage Apple auth".toList)) (some []) .absent none

/-- An environment in which every fetch succeeds except the single
group-detail page `u1` of the one linked base command `webapp`. -/
def envC2 : Env :=
  { srcExists := true
    artifactExists := false
    status := fun k => match k with
      | .url u => if u = "u1".toList then 500 else 200
      | _ => 200
    versionFromTitle := some ("2.60.0".toList)
    rows := [{ name := "webapp".toList
               description := "Manage web apps.".toList
               link := some ("L".toList) }]
    groupUrls := fun _ => ["u1".toList] }

/-- An environment in which the artifact for the resolved version already
exists. -/
def envC6 : Env :=
  { srcExists := true
    artifactExists := true
    status := fun _ => 200
    versionFromTitle := some ("2.60.0".toList)
    rows := []
    groupUrls := fun _ => [] }

/-- Two listing rows with the same name, as for the v1/v2 `ml` extensions
(the comment on line 112). -/
def mlV1 : BaseCommand :=
  { name := "ml".toList, description := "v1".toList, link := some ("l1".toList) }

def mlV2 : BaseCommand :=
  { name := "ml".toList, description := "v2".toList, link := some ("l2".toList) }

/- ===== Helper lemmas ===== -/

theorem figifyEmptyList_eq_absent_iff {α : Type} (l : List α) :
    figifyEmptyList l = Figify.absent ↔ l = [] := by
  cases l with
  | nil => simp [figifyEmptyList]
  | cons x xs => cases xs <;> simp [figifyEmptyList, figifyList]

/- ===== Claim theorems ===== -/

/-- Claim C7, counterexample: `removeTrailingDot` is not idempotent — on
`".."` a second application removes a second dot. -/
theorem c7_counterexample :
    removeTrailingDot (removeTrailingDot ("..".toList)) ≠ removeTrailingDot ("..".toList) := by
  decide

/-- Claim C7, amended: `removeTrailingDot` returns strings not ending in
`'.'` unchanged and removes exactly one trailing `'.'` otherwise; applying
it twice equals applying it once for every input that does not end in two
periods (on `".."`-suffixed inputs the second application removes a second
period). -/
theorem c7_amended (s : Str) :
    (s.getLast? ≠ some '.' → removeTrailingDot s = s)
  ∧ (s.getLast? = some '.' → removeTrailingDot s ++ ['.'] = s)
  ∧ (¬(s.getLast? = some '.' ∧ s.dropLast.getLast? = some '.') →
      removeTrailingDot (removeTrailingDot s) = removeTrailingDot s) := by
  refine ⟨fun h => ?_, fun h => ?_, fun h => ?_⟩
  · simp [removeTrailingDot, h]
  · rw [removeTrailingDot, if_pos h]
    exact List.dropLast_append_getLast? '.' h
  · by_cases h1 : s.getLast? = some '.'
    · have h2 : s.dropLast.getLast? ≠ some '.' := fun hh => h ⟨h1, hh⟩
      have e1 : removeTrailingDot s = s.dropLast := by rw [removeTrailingDot, if_pos h1]
      rw [e1, removeTrailingDot, if_neg h2]
    · have e1 : removeTrailingDot s = s := by rw [removeTrailingDot, if_neg h1]
      rw [e1]
      exact e1

/-- Claim C7, witness for the amended theorem at `"ok."`. -/
theorem c7_amended_witness :
    ("ok.".toList.getLast? = some '.')
  ∧ removeTrailingDot ("ok.".toList) ++ ['.'] = "ok.".toList
  ∧ removeTrailingDot (removeTrailingDot ("ok.".toList)) = removeTrailingDot ("ok.".toList) :=
  ⟨by decide, (c7_amended ("ok.".toList)).2.1 (by decide),
    (c7_amended ("ok.".toList)).2.2 (by decide)⟩

/-- Claim C9, confirmed: `figifyEmptyList` maps the empty sequence to
"absent", a one-element sequence to its sole element, and longer sequences
to themselves unchanged; it never produces an empty "many" sequence. -/
theorem c9_collapsing {α : Type} (a : α) (l : List α) :
    figifyEmptyList ([] : List α) = Figify.absent
  ∧ figifyEmptyList [a] = Figify.single a
  ∧ (2 ≤ l.length → figifyEmptyList l = Figify.many l)
  ∧ figifyEmptyList l ≠ Figify.many ([] : List α) := by
  refine ⟨rfl, rfl, fun h => ?_, ?_⟩
  · match l with
    | [] => simp at h
    | [x] => simp at h
    | x :: y :: t => rfl
  · match l with
    | [] => simp [figifyEmptyList]
    | [x] => simp [figifyEmptyList, figifyList]
    | x :: y :: t => simp [figifyEmptyList, figifyList]

/-- Claim C9, witness at a two-element list. -/
theorem c9_collapsing_witness :
    2 ≤ ([0, 1] : List Nat).length ∧ figifyEmptyList ([0, 1] : List Nat) = Figify.many [0, 1] :=
  ⟨by decide, (c9_collapsing 0 [0, 1]).2.2.1 (by decide)⟩

/-- Claim C3, counterexample: on the capitalized description the option is
indeed a boolean switch (`args = none`, so no suggestion set is attached
anywhere), but the accepted-values annotation is still present in the
emitted description — the `match`/`replace` markers on lines 62 and 70-72
are lowercase and case-sensitive, so they never fire on this input. -/
theorem c3_counterexample :
    (getOption ("-o".toList) acceptedValuesDesc false false).args = none
  ∧ containsSub (getOption ("-o".toList) acceptedValuesDesc false false).description
      ("Accepted values:".toList) = true := by
  exact ⟨rfl, by decide⟩

/-- Claim C3, amended: for every names text, `getOption` on the description
`"Accepted values: json, table, yaml. Default value: False."` produces an
Option with no argument (the lowercased includes-check on line 53 fires),
hence no suggestion set is attached anywhere; and because the annotation
regexes are case-sensitive while the markers are capitalized, the emitted
description keeps both annotation substrings, losing only the trailing
period. -/
theorem c3_amended (name : Str) (isPersistent isRequired : Bool) :
    (getOption name acceptedValuesDesc isPersistent isRequired).args = none
  ∧ (getOption name acceptedValuesDesc isPersistent isRequired).description
      = "Accepted values: json, table, yaml. Default value: False".toList :=
  ⟨rfl, rfl⟩

/-- Claim C4: the canonical argument label is indeed the longest alias with
leading dashes stripped, but `names.sort(...)` on line 51 sorts the alias
array in place, so the alias list exposed on the Option is in
length-descending order, not declaration order. -/
theorem c4_sort_reorders_aliases :
    ((getOption ("-g --resource-group".toList) ("The resource group.".toList) false false).name
      = Figify.many ["--resource-group".toList, "-g".toList])
  ∧ ((getOption ("-g --resource-group".toList) ("The resource group.".toList) false false).args
      = some { name := "resource-group".toList, description := none
               suggestions := none, isOptional := none })
  ∧ ((getOption ("-g --resource-group".toList) ("The resource group.".toList) false false).name
      ≠ Figify.many ["-g".toList, "--resource-group".toList]) :=
  ⟨rfl, rfl, by decide⟩

/-- Claim C1: merging a group page whose heading path has two or more
segments does not nest: the walk of lines 328-340 pushes the second fresh
node through `subcommands?.push` on a node whose `subcommands` is
`undefined` (a no-op), and the leaf append of lines 346-351 keeps
`undefined` as `undefined`, so neither the inner path node nor the leaf
ever reaches the tree; even for a single-segment path the freshly created
group node receives its description but loses every leaf command. -/
theorem c1_nesting_lost :
    (mergeGroupPage ["webapp".toList, "auth".toList] azRoot ("Manage auth.".toList) [appleLeaf]
      = .mk ("az".toList) none none .absent
          (some [.mk ("webapp".toList) none none .absent none]))
  ∧ (mergeGroupPage ["auth".toList] webappBase ("Manage auth.".toList) [appleLeaf]
      = .mk ("webapp".toList) (some ("Manage web apps".toList)) none .absent
          (some [.mk ("auth".toList) (some ("Manage auth".toList)) none .absent none])) :=
  ⟨rfl, rfl⟩

/-- Claim C10, confirmed: `parseSubcommand` always emits the `options`
field as the (possibly empty) array of classified dash-prefixed components
— the empty array is truthy, so `options ? options : undefined` keeps it —
while `args` is absent exactly when no angle-bracket-prefixed component
exists. -/
theorem c10_options_present_args_absent (heading desc : Str)
    (reqs opts : List RawComponent) (baseCommand : Bool) :
    (parseSubcommandModel heading desc reqs opts baseCommand).options
      = some (classifyOptions (reqs ++ opts))
  ∧ ((parseSubcommandModel heading desc reqs opts baseCommand).args = Figify.absent
      ↔ (reqs ++ opts).filter isArgComponent = []) := by
  constructor
  · rfl
  · show classifyArgs (reqs ++ opts) = Figify.absent ↔ _
    rw [classifyArgs, figifyEmptyList_eq_absent_iff, List.map_eq_nil_iff]

/-- Claim C6, counterexample: when the artifact for the resolved version
already exists the run exits reporting success with no write, but it is
not free of network activity — `genCurrentVersion` has already fetched the
release page before the existence check on line 375 can run. -/
theorem c6_counterexample :
    (mainRun envC6).1 = Outcome.upToDate ∧ (mainRun envC6).2.fetches ≠ [] :=
  ⟨rfl, by decide⟩

/-- Claim C6, amended: when the artifact for the resolved version already
exists, the run exits immediately reporting success, writes nothing, and
its only network activity is the single version-resolution fetch. -/
theorem c6_amended (env : Env) (v : Str) (h1 : env.srcExists = true)
    (h2 : env.status .releases = 200) (h3 : env.versionFromTitle = some v)
    (h4 : env.artifactExists = true) :
    mainRun env = (Outcome.upToDate, { fetches := [.releases], writes := [] }) := by
  rw [mainRun, h1, h3]
  simp [h2, h4, addFetch]

/-- Claim C6, witness for the amended theorem at `envC6`. -/
theorem c6_amended_witness :
    mainRun envC6 = (Outcome.upToDate, { fetches := [.releases], writes := [] }) :=
  c6_amended envC6 ("2.60.0".toList) rfl rfl rfl rfl

theorem fetchUrlsRun_writes (env : Env) (n : Str) (us : List Str) (t : Trace) :
    (fetchUrlsRun env n us t).2.writes = t.writes := by
  induction us generalizing t with
  | nil => rfl
  | cons u us ih =>
    rw [fetchUrlsRun]
    by_cases h : env.status (.url u) = 200 <;> simp [h, ih, addFetch]

theorem fetchUrlsRun_fst (env : Env) (n : Str) (us : List Str) (t t' : Trace) :
    (fetchUrlsRun env n us t).1 = (fetchUrlsRun env n us t').1 := by
  induction us generalizing t t' with
  | nil => rfl
  | cons u us ih =>
    rw [fetchUrlsRun, fetchUrlsRun]
    by_cases h : env.status (.url u) = 200 <;> simp [h]
    exact ih _ _

theorem loadSubcommandRun_writes (env : Env) (b : BaseCommand) (t : Trace) :
    (loadSubcommandRun env b t).2.writes = t.writes := by
  rw [loadSubcommandRun]
  cases b.link with
  | none => by_cases h : env.status .baseIndex = 200 <;> simp [h, addFetch]
  | some link =>
    by_cases h : env.status (.url link) = 200 <;>
      simp [h, addFetch, fetchUrlsRun_writes]

theorem loadSubcommandRun_fst (env : Env) (b : BaseCommand) (t t' : Trace) :
    (loadSubcommandRun env b t).1 = (loadSubcommandRun env b t').1 := by
  rw [loadSubcommandRun, loadSubcommandRun]
  cases b.link with
  | none => by_cases h : env.status .baseIndex = 200 <;> simp [h]
  | some link =>
    by_cases h : env.status (.url link) = 200 <;> simp [h]
    exact fetchUrlsRun_fst env b.name _ _ _

theorem loadAllRun_writes (env : Env) (bs : List BaseCommand) (t : Trace) :
    (loadAllRun env bs t).2.writes = t.writes := by
  induction bs generalizing t with
  | nil => rfl
  | cons b bs ih =>
    rw [loadAllRun]
    cases hb : loadSubcommandRun env b t with
    | mk f t2 =>
      have hw : t2.writes = t.writes := by
        have := loadSubcommandRun_writes env b t
        rw [hb] at this
        exact this
      cases f with
      | none => simpa [hw] using ih t2
      | some e => simpa using hw

theorem loadAllRun_fst (env : Env) (bs : List BaseCommand) (t t' : Trace) :
    (loadAllRun env bs t).1 = (loadAllRun env bs t').1 := by
  induction bs generalizing t t' with
  | nil => rfl
  | cons b bs ih =>
    rw [loadAllRun, loadAllRun]
    have hf := loadSubcommandRun_fst env b t t'
    cases hb : loadSubcommandRun env b t with
    | mk f t2 =>
      cases hb' : loadSubcommandRun env b t' with
      | mk f' t2' =>
        rw [hb, hb'] at hf
        simp at hf
        cases f with
        | none => rw [← hf] at *; exact ih t2 t2'
        | some e => rw [← hf]

/-- Claim C2, counterexample: a failing group-detail fetch aborts the run
with an error and without retry, but the run has already produced an
output artifact — `writeBaseCommands` (line 394) writes
`src/az/<version>.ts` before any group page is fetched, and that file
remains after the failure. -/
theorem c2_counterexample :
    (mainRun envC2).1 = Outcome.err (msgSubFail ("webapp".toList))
  ∧ (mainRun envC2).2.writes = [versionFile ("2.60.0".toList)]
  ∧ (mainRun envC2).2.writes ≠ [] :=
  ⟨rfl, rfl, by decide⟩

/-- Claim C2, amended: any non-success fetch makes the error propagate and
abort the run with no retry; a failure of the version fetch or of the
listing/global-options fetch happens before any write, so no artifact is
produced, but a failure while loading the subcommand group pages happens
after the base-commands artifact has been written, so that artifact of the
failing run remains. -/
theorem c2_amended (env : Env) (v e : Str) :
    (env.srcExists = true → env.status .releases ≠ 200 →
      (mainRun env).1 = Outcome.err msgVersionFail ∧ (mainRun env).2.writes = [])
  ∧ (env.srcExists = true → env.status .releases = 200 →
      env.versionFromTitle = some v → env.artifactExists = false →
      env.status .baseIndex ≠ 200 →
      (mainRun env).1 = Outcome.err msgListFail ∧ (mainRun env).2.writes = [])
  ∧ (env.srcExists = true → env.status .releases = 200 →
      env.versionFromTitle = some v → env.artifactExists = false →
      env.status .baseIndex = 200 →
      (loadAllRun env (dedupByName env.rows) { fetches := [], writes := [] }).1 = some e →
      (mainRun env).1 = Outcome.err e ∧ (mainRun env).2.writes = [versionFile v]) := by
  refine ⟨fun h1 h2 => ?_, fun h1 h2 h3 h4 h5 => ?_, fun h1 h2 h3 h4 h5 h6 => ?_⟩
  · rw [mainRun, h1]
    simp [h2, addFetch]
  · rw [mainRun, h1, h3]
    simp [h2, h4, h5, addFetch]
  · rw [mainRun, h1, h3]
    have hfst := loadAllRun_fst env (dedupByName env.rows)
      (addWrite (addFetch (addFetch (addFetch { fetches := [], writes := [] }
        .releases) .baseIndex) .baseIndex) (versionFile v))
      { fetches := [], writes := [] }
    rw [h6] at hfst
    cases hall : loadAllRun env (dedupByName env.rows)
        (addWrite (addFetch (addFetch (addFetch { fetches := [], writes := [] }
          .releases) .baseIndex) .baseIndex) (versionFile v)) with
    | mk f t5 =>
      rw [hall] at hfst
      simp at hfst
      have hw : t5.writes = [versionFile v] := by
        have := loadAllRun_writes env (dedupByName env.rows)
          (addWrite (addFetch (addFetch (addFetch { fetches := [], writes := [] }
            .releases) .baseIndex) .baseIndex) (versionFile v))
        rw [hall] at this
        simpa [addWrite, addFetch] using this
      simp [h2, h4, h5, hall, hfst, hw]

/-- Claim C2, witness for the amended theorem at `envC2`: every hypothesis
of the group-page-failure arm holds there concretely. -/
theorem c2_amended_witness :
    (mainRun envC2).1 = Outcome.err (msgSubFail ("webapp".toList))
  ∧ (mainRun envC2).2.writes = [versionFile ("2.60.0".toList)] :=
  (c2_amended envC2 ("2.60.0".toList) (msgSubFail ("webapp".toList))).2.2
    rfl rfl rfl rfl rfl (by decide)

theorem takeWhile_append_all {α : Type} (p : α → Bool) (l r : List α)
    (h : ∀ x ∈ l, p x = true) : (l ++ r).takeWhile p = l ++ r.takeWhile p := by
  induction l with
  | nil => simp
  | cons x xs ih =>
    have hx : p x = true := h x (by simp)
    simp only [List.cons_append, List.takeWhile_cons, hx, if_true]
    rw [ih (fun y hy => h y (by simp [hy]))]

theorem dropWhile_append_all {α : Type} (p : α → Bool) (l r : List α)
    (h : ∀ x ∈ l, p x = true) : (l ++ r).dropWhile p = r.dropWhile p := by
  induction l with
  | nil => simp
  | cons x xs ih =>
    have hx : p x = true := h x (by simp)
    simp only [List.cons_append, List.dropWhile_cons, hx, if_true]
    exact ih (fun y hy => h y (by simp [hy]))

theorem joinSeps_single (x : Str) (seps : Str) : joinSeps [x] seps = x := by
  cases seps <;> rfl

theorem splitOnPred_of_none (p : Char → Bool) (s : Str) (h : ∀ x ∈ s, p x = false) :
    splitOnPred p s = [s] := by
  induction s with
  | nil => rfl
  | cons c rest ih =>
    have hc : p c = false := h c (by simp)
    have ih2 : splitOnPred p rest = [rest] := ih (fun x hx => h x (by simp [hx]))
    simp [splitOnPred, hc, ih2]

/-- Claim C8, counterexample: the regex `\(.*\)` is greedy, so on
`"a (x) b (y) c"` everything from the first `(` to the last `)` is removed
— including the text between the two parenthesized substrings — instead of
only the first parenthesized substring. -/
theorem c8_counterexample :
    cleanCommandName ("a (x) b (y) c".toList) = "a  c".toList
  ∧ cleanCommandName ("a (x) b (y) c".toList) ≠ "a  b (y) c".toList := by
  exact ⟨rfl, by decide⟩

/-- Claim C8, amended: on an input free of the regex line terminators
(LF, CR, U+2028, U+2029 — the characters the dot of `\(.*\)` cannot
match), `cleanCommandName` removes the span from the first `(` through the
last `)` — together with any later parenthesized substrings and the text
between them — and trims the surrounding whitespace. -/
theorem c8_amended (a b c : Str) (ha : '(' ∉ a)
    (hta : ∀ x ∈ a, jsDotExcl x = false) (htb : ∀ x ∈ b, jsDotExcl x = false)
    (htc : ∀ x ∈ c, jsDotExcl x = false) (hcc : ')' ∉ c) :
    cleanCommandName (a ++ ('(' :: (b ++ (')' :: c)))) = jsTrim (a ++ c) := by
  have hnl : ∀ x ∈ (a ++ ('(' :: (b ++ (')' :: c)))), jsDotExcl x = false := by
    intro x hx
    rcases List.mem_append.mp hx with h1 | h2
    · exact hta x h1
    · rcases List.mem_cons.mp h2 with h3 | h4
      · rw [h3]
        decide
      · rcases List.mem_append.mp h4 with h5 | h6
        · exact htb x h5
        · rcases List.mem_cons.mp h6 with h7 | h8
          · rw [h7]
            decide
          · exact htc x h8
  have hA : ∀ x ∈ a, (x != '(') = true := by
    intro x hx
    simp only [bne_iff_ne, ne_eq]
    rintro rfl
    exact ha hx
  have hC : ∀ x ∈ c.reverse, (x != ')') = true := by
    intro x hx
    simp only [bne_iff_ne, ne_eq]
    rintro rfl
    exact hcc (List.mem_reverse.mp hx)
  have hdrop : (a ++ ('(' :: (b ++ (')' :: c)))).dropWhile (fun x => x != '(')
      = '(' :: (b ++ (')' :: c)) := by
    rw [dropWhile_append_all _ _ _ hA]
    simp [List.dropWhile_cons]
  have htail : ((a ++ ('(' :: (b ++ (')' :: c)))).dropWhile (fun x => x != '(')).drop 1
      = b ++ (')' :: c) := by
    rw [hdrop]
    rfl
  have htake : (a ++ ('(' :: (b ++ (')' :: c)))).takeWhile (fun x => x != '(') = a := by
    rw [takeWhile_append_all _ _ _ hA]
    simp [List.takeWhile_cons]
  have hany : (b ++ (')' :: c)).any (fun x => x == ')') = true := by
    simp [List.any_append]
  have hafter : afterLastClose (b ++ (')' :: c)) = c := by
    rw [afterLastClose]
    have hrev : (b ++ (')' :: c)).reverse = c.reverse ++ (')' :: b.reverse) := by
      simp
    rw [hrev, takeWhile_append_all _ _ _ hC]
    simp [List.takeWhile_cons]
  have hstrip : stripParenLine (a ++ ('(' :: (b ++ (')' :: c)))) = a ++ c := by
    simp only [stripParenLine]
    rw [htail, htake, if_pos hany, hafter]
  rw [cleanCommandName, removeParens, splitOnPred_of_none jsDotExcl _ hnl]
  simp only [List.map_cons, List.map_nil]
  rw [joinSeps_single, hstrip]

/-- Claim C8, witness for the amended theorem on `"az group (preview)"`. -/
theorem c8_amended_witness :
    ('(' ∉ ("az group ".toList))
  ∧ cleanCommandName ("az group ".toList ++ ('(' :: ("preview".toList ++ (')' :: ("".toList)))))
      = jsTrim ("az group ".toList ++ ("".toList)) :=
  ⟨by decide, c8_amended ("az group ".toList) ("preview".toList) ("".toList)
    (by decide) (by decide) (by decide) (by decide) (by decide)⟩

theorem mapFind_update_ne (b : BaseCommand) (m : List (Str × BaseCommand)) (k : Str)
    (hk : b.name ≠ k) :
    mapFind (m.map (fun p => if p.1 = b.name then (p.1, b) else p)) k = mapFind m k := by
  induction m with
  | nil => rfl
  | cons p rest ih =>
    by_cases h1 : p.1 = b.name
    · have hpk : ¬(p.1 = k) := fun hh => hk (h1 ▸ hh)
      rw [List.map_cons, if_pos h1]
      rw [mapFind, mapFind, if_neg hpk, if_neg hpk]
      exact ih
    · rw [List.map_cons, if_neg h1]
      rw [mapFind, mapFind]
      by_cases h2 : p.1 = k
      · rw [if_pos h2, if_pos h2]
      · rw [if_neg h2, if_neg h2]
        exact ih

theorem mapFind_update (b : BaseCommand) (m : List (Str × BaseCommand)) (k : Str)
    (hany : m.any (fun p => decide (p.1 = b.name)) = true) :
    mapFind (m.map (fun p => if p.1 = b.name then (p.1, b) else p)) k
      = if b.name = k then some b else mapFind m k := by
  induction m with
  | nil => simp at hany
  | cons p rest ih =>
    by_cases h1 : p.1 = b.name
    · rw [List.map_cons, if_pos h1, mapFind, mapFind]
      by_cases h2 : p.1 = k
      · have hbk : b.name = k := h1 ▸ h2
        rw [if_pos h2, if_pos h2, if_pos hbk]
      · have hbk : ¬(b.name = k) := fun hh => h2 (h1.trans hh)
        rw [if_neg h2, if_neg h2, if_neg hbk]
        exact mapFind_update_ne b rest k hbk
    · have hrest : rest.any (fun p => decide (p.1 = b.name)) = true := by
        simp only [List.any_cons, Bool.or_eq_true, decide_eq_true_eq] at hany
        rcases hany with hh | hh
        · exact absurd hh h1
        · exact hh
      rw [List.map_cons, if_neg h1, mapFind, mapFind]
      by_cases h2 : p.1 = k
      · have hbk : ¬(b.name = k) := fun hh => h1 (h2.trans hh.symm)
        rw [if_pos h2, if_pos h2, if_neg hbk]
      · rw [if_neg h2, if_neg h2]
        exact ih hrest

theorem mapFind_append_new (b : BaseCommand) (m : List (Str × BaseCommand)) (k : Str)
    (hany : m.any (fun p => decide (p.1 = b.name)) = false) :
    mapFind (m ++ [(b.name, b)]) k = if b.name = k then some b else mapFind m k := by
  induction m with
  | nil => rfl
  | cons p rest ih =>
    have h1 : ¬(p.1 = b.name) := by
      intro hh
      rw [List.any_cons, hh] at hany
      simp at hany
    have h2 : rest.any (fun p => decide (p.1 = b.name)) = false := by
      rw [List.any_cons] at hany
      exact (Bool.or_eq_false_iff.mp hany).2
    rw [List.cons_append, mapFind, mapFind]
    by_cases hk : p.1 = k
    · have hbk : ¬(b.name = k) := fun hh => h1 (hk.trans hh.symm)
      rw [if_pos hk, if_pos hk, if_neg hbk]
    · rw [if_neg hk, if_neg hk]
      exact ih h2

theorem mapFind_insert (m : List (Str × BaseCommand)) (b : BaseCommand) (k : Str) :
    mapFind (mapInsert m b) k = if b.name = k then some b else mapFind m k := by
  rw [mapInsert]
  by_cases h : m.any (fun p => decide (p.1 = b.name)) = true
  · rw [if_pos h]
    exact mapFind_update b m k h
  · rw [if_neg h]
    refine mapFind_append_new b m k ?_
    cases hcase : m.any (fun p => decide (p.1 = b.name)) with
    | false => rfl
    | true => exact absurd hcase h

theorem mapInsert_keys_nodup (m : List (Str × BaseCommand)) (b : BaseCommand)
    (h : (m.map Prod.fst).Nodup) : ((mapInsert m b).map Prod.fst).Nodup := by
  rw [mapInsert]
  by_cases hc : m.any (fun p => decide (p.1 = b.name)) = true
  · rw [if_pos hc]
    have hkeys : (m.map (fun p => if p.1 = b.name then (p.1, b) else p)).map Prod.fst
        = m.map Prod.fst := by
      rw [List.map_map]
      apply List.map_congr_left
      intro p _
      by_cases h1 : p.1 = b.name <;> simp [h1]
    rw [hkeys]
    exact h
  · rw [if_neg hc]
    rw [List.map_append, List.nodup_append]
    refine ⟨h, by simp, ?_⟩
    intro x hx
    simp only [List.map_cons, List.map_nil, List.mem_singleton]
    intro hxb
    simp only [List.any_eq_true, decide_eq_true_eq] at hc
    obtain ⟨p, hp, hpx⟩ := List.mem_map.mp hx
    exact hc ⟨p, hp, by rw [hpx, hxb]⟩

theorem mapInsert_name_eq_key (m : List (Str × BaseCommand)) (b : BaseCommand)
    (h : ∀ p ∈ m, p.2.name = p.1) : ∀ p ∈ mapInsert m b, p.2.name = p.1 := by
  rw [mapInsert]
  by_cases hc : m.any (fun p => decide (p.1 = b.name)) = true
  · rw [if_pos hc]
    intro p hp
    obtain ⟨q, hq, hqp⟩ := List.mem_map.mp hp
    by_cases h1 : q.1 = b.name
    · rw [← hqp, if_pos h1]
      exact h1.symm
    · rw [← hqp, if_neg h1]
      exact h q hq
  · rw [if_neg hc]
    intro p hp
    rcases List.mem_append.mp hp with hp1 | hp2
    · exact h p hp1
    · rcases List.mem_singleton.mp hp2 with rfl
      rfl

theorem mapFind_of_mem_nodup (m : List (Str × BaseCommand)) (k : Str) (v : BaseCommand)
    (hn : (m.map Prod.fst).Nodup) (hm : (k, v) ∈ m) : mapFind m k = some v := by
  induction m with
  | nil => cases hm
  | cons p rest ih =>
    rw [List.map_cons] at hn
    have hcons := List.nodup_cons.mp hn
    rcases List.mem_cons.mp hm with heq | hm2
    · rw [← heq, mapFind, if_pos rfl]
    · have hk : ¬(p.1 = k) := by
        intro hh
        exact hcons.1 (by
          rw [hh]
          exact List.mem_map.mpr ⟨(k, v), hm2, rfl⟩)
      rw [mapFind, if_neg hk]
      exact ih hcons.2 hm2

theorem mem_of_mapFind (m : List (Str × BaseCommand)) (k : Str) (v : BaseCommand)
    (h : mapFind m k = some v) : (k, v) ∈ m := by
  induction m with
  | nil => cases h
  | cons p rest ih =>
    obtain ⟨p1, p2⟩ := p
    by_cases h1 : p1 = k
    · rw [mapFind, if_pos h1] at h
      have hv : p2 = v := Option.some_inj.mp h
      rw [← h1, ← hv]
      exact List.mem_cons_self _ _
    · rw [mapFind, if_neg h1] at h
      exact List.mem_cons_of_mem _ (ih h)

theorem getLastQ_cons {α : Type} (a : α) (l : List α) :
    (a :: l).getLast? = orElseO l.getLast? (some a) := by
  cases l with
  | nil => rfl
  | cons b t =>
    rw [List.getLast?_cons_cons]
    cases h : (b :: t).getLast? with
    | none =>
      exfalso
      simp [List.getLast?_eq_none_iff] at h
    | some x => rfl

theorem orElseO_assoc {α : Type} (a b c : Option α) :
    orElseO (orElseO a b) c = orElseO a (orElseO b c) := by
  cases a <;> rfl

theorem foldl_mapInsert_find (rows : List BaseCommand) :
    ∀ (m : List (Str × BaseCommand)) (k : Str),
      mapFind (rows.foldl mapInsert m) k
        = orElseO ((rows.filter (fun r => decide (r.name = k))).getLast?) (mapFind m k) := by
  induction rows with
  | nil =>
    intro m k
    rfl
  | cons r rest ih =>
    intro m k
    rw [List.foldl_cons, ih (mapInsert m r) k, mapFind_insert]
    by_cases h : r.name = k
    · have hfc : (r :: rest).filter (fun x => decide (x.name = k))
          = r :: rest.filter (fun x => decide (x.name = k)) := by
        rw [List.filter_cons]
        simp [h]
      rw [hfc, getLastQ_cons, orElseO_assoc, if_pos h]
      rfl
    · have hfc : (r :: rest).filter (fun x => decide (x.name = k))
          = rest.filter (fun x => decide (x.name = k)) := by
        rw [List.filter_cons]
        simp [h]
      rw [hfc, if_neg h]

theorem foldl_mapInsert_nodup (rows : List BaseCommand) :
    ∀ m, ((m.map Prod.fst).Nodup) → (((rows.foldl mapInsert m)).map Prod.fst).Nodup := by
  induction rows with
  | nil => exact fun _ h => h
  | cons r rest ih =>
    intro m h
    exact ih (mapInsert m r) (mapInsert_keys_nodup m r h)

theorem foldl_mapInsert_inv (rows : List BaseCommand) :
    ∀ m, (∀ p ∈ m, p.2.name = p.1) → ∀ p ∈ rows.foldl mapInsert m, p.2.name = p.1 := by
  induction rows with
  | nil => exact fun _ h => h
  | cons r rest ih =>
    intro m h
    exact ih (mapInsert m r) (mapInsert_name_eq_key m r h)

/-- Claim C5, confirmed: the `Map`-based de-duplication of
`genBaseSubcommands` keeps exactly one entry per distinct name; the
surviving entry for a name is the last listing row bearing that name
(last-write-wins), and every row's name is represented in the result. -/
theorem c5_dedup_last_wins (rows : List BaseCommand) :
    ((dedupByName rows).map (fun b => b.name)).Nodup
  ∧ (∀ b, b ∈ dedupByName rows →
      (rows.filter (fun r => decide (r.name = b.name))).getLast? = some b)
  ∧ (∀ r, r ∈ rows → ∃ b, b ∈ dedupByName rows ∧ b.name = r.name) := by
  have hnod : ((rows.foldl mapInsert []).map Prod.fst).Nodup :=
    foldl_mapInsert_nodup rows [] (by simp)
  have hinv : ∀ p ∈ rows.foldl mapInsert [], p.2.name = p.1 :=
    foldl_mapInsert_inv rows [] (by simp)
  refine ⟨?_, ?_, ?_⟩
  · have hkeys : (dedupByName rows).map (fun b => b.name)
        = (rows.foldl mapInsert []).map Prod.fst := by
      rw [dedupByName, List.map_map]
      exact List.map_congr_left (fun p hp => hinv p hp)
    rw [hkeys]
    exact hnod
  · intro b hb
    rw [dedupByName] at hb
    obtain ⟨p, hp, hpb⟩ := List.mem_map.mp hb
    have hkey : p.1 = b.name := by
      rw [← hpb]
      exact (hinv p hp).symm
    have hfind : mapFind (rows.foldl mapInsert []) p.1 = some p.2 :=
      mapFind_of_mem_nodup _ _ _ hnod (by rw [Prod.mk.eta]; exact hp)
    rw [foldl_mapInsert_find rows [] p.1] at hfind
    cases hgl : (rows.filter (fun r => decide (r.name = p.1))).getLast? with
    | none =>
      rw [hgl] at hfind
      cases hfind
    | some q =>
      rw [hgl] at hfind
      have hq : q = p.2 := by
        simpa [orElseO] using hfind
      rw [← hkey, hgl, hq, hpb]
  · intro r hr
    have hne : (rows.filter (fun x => decide (x.name = r.name))) ≠ [] := by
      intro hh
      have hmem : r ∈ rows.filter (fun x => decide (x.name = r.name)) :=
        List.mem_filter.mpr ⟨hr, by simp⟩
      rw [hh] at hmem
      cases hmem
    obtain ⟨q, hq⟩ := Option.isSome_iff_exists.mp (List.getLast?_isSome.mpr hne)
    have hfind : mapFind (rows.foldl mapInsert []) r.name = some q := by
      rw [foldl_mapInsert_find rows [] r.name, hq]
      rfl
    have hmem := mem_of_mapFind _ _ _ hfind
    refine ⟨q, List.mem_map.mpr ⟨(r.name, q), hmem, rfl⟩, ?_⟩
    exact hinv _ hmem

/-- Claim C5, witness: the two same-named `ml` rows collapse to the later
one. -/
theorem c5_dedup_last_wins_witness :
    (mlV2 ∈ dedupByName [mlV1, mlV2])
  ∧ ([mlV1, mlV2].filter (fun r => decide (r.name = mlV2.name))).getLast? = some mlV2 :=
  ⟨by decide, (c5_dedup_last_wins [mlV1, mlV2]).2.1 mlV2 (by decide)⟩
